import Mathlib

/-!
Verification of the remote key-value storage layer of avalanche-types-rs
(memdb, the corruption-guard decorator, and the rpcdb handle table), and of
two pure utilities present in the sources (`Default` resolution for the
JSON-RPC response records, and `KeyType` string conversion).

Keys and values are opaque byte sequences; bytes are modelled as `Nat`
(the unsigned byte-wise comparison on `Nat` coincides with the one on
`u8` values, which are all below 256).
-/

namespace Avalanche

abbrev Key := List Nat

abbrev Value := List Nat

/-- Byte-wise unsigned lexicographic "less or equal" on keys: the empty
sequence is least, and a shorter sequence sorts before any longer sequence
that it is a proper leading part of. -/
def lexLe : Key → Key → Bool
  | [], _ => true
  | _ :: _, [] => false
  | a :: as, b :: bs => if a < b then true else if b < a then false else lexLe as bs

/-- Byte-wise unsigned lexicographic strict "less than" on keys. -/
def lexLt : Key → Key → Bool
  | [], [] => false
  | [], _ :: _ => true
  | _ :: _, [] => false
  | a :: as, b :: bs => if a < b then true else if b < a then false else lexLt as bs

theorem lexLe_refl : ∀ a : Key, lexLe a a = true
  | [] => rfl
  | x :: xs => by simp [lexLe, lexLe_refl xs]

theorem lexLe_trans : ∀ a b c : Key, lexLe a b = true → lexLe b c = true → lexLe a c = true
  | [], _, _, _, _ => rfl
  | _ :: _, [], _, h1, _ => by simp [lexLe] at h1
  | _ :: _, _ :: _, [], _, h2 => by simp [lexLe] at h2
  | a :: as, b :: bs, c :: cs, h1, h2 => by
    simp only [lexLe] at h1 h2 ⊢
    rcases Nat.lt_trichotomy a b with hab | hab | hab
    · rcases Nat.lt_trichotomy b c with hbc | hbc | hbc
      · simp [Nat.lt_trans hab hbc]
      · subst hbc; simp [hab]
      · rcases Nat.lt_trichotomy a c with hac | hac | hac
        · simp [hac]
        · subst hac
          simp [Nat.lt_asymm hab, hab] at h2
        · simp [Nat.lt_asymm hbc, hbc] at h2
    · subst hab
      rcases Nat.lt_trichotomy a c with hac | hac | hac
      · simp [hac]
      · subst hac
        simp only [Nat.lt_irrefl, if_false] at h1 h2 ⊢
        exact lexLe_trans as bs cs h1 h2
      · simp [Nat.lt_asymm hac, hac] at h2
    · simp [Nat.lt_asymm hab, hab] at h1

theorem lexLe_total : ∀ a b : Key, lexLe a b = true ∨ lexLe b a = true
  | [], _ => Or.inl rfl
  | _ :: _, [] => Or.inr rfl
  | a :: as, b :: bs => by
    rcases Nat.lt_trichotomy a b with h | h | h
    · exact Or.inl (by simp [lexLe, h])
    · subst h
      rcases lexLe_total as bs with ih | ih
      · exact Or.inl (by simp [lexLe, ih])
      · exact Or.inr (by simp [lexLe, ih])
    · exact Or.inr (by simp [lexLe, h])

theorem lexLe_antisymm : ∀ a b : Key, lexLe a b = true → lexLe b a = true → a = b
  | [], [], _, _ => rfl
  | [], _ :: _, _, h2 => by simp [lexLe] at h2
  | _ :: _, [], h1, _ => by simp [lexLe] at h1
  | a :: as, b :: bs, h1, h2 => by
    simp only [lexLe] at h1 h2
    rcases Nat.lt_trichotomy a b with hab | hab | hab
    · simp [Nat.lt_asymm hab, hab] at h2
    · subst hab
      simp only [Nat.lt_irrefl, if_false] at h1 h2
      rw [lexLe_antisymm as bs h1 h2]
    · simp [Nat.lt_asymm hab, hab] at h1

theorem lexLt_irrefl : ∀ a : Key, lexLt a a = false
  | [] => rfl
  | x :: xs => by simp [lexLt, lexLt_irrefl xs]

theorem lexLt_of_le_of_ne : ∀ a b : Key, lexLe a b = true → a ≠ b → lexLt a b = true
  | [], [], _, hne => absurd rfl hne
  | [], _ :: _, _, _ => rfl
  | _ :: _, [], h1, _ => by simp [lexLe] at h1
  | a :: as, b :: bs, h1, hne => by
    simp only [lexLe] at h1
    simp only [lexLt]
    rcases Nat.lt_trichotomy a b with hab | hab | hab
    · simp [hab]
    · subst hab
      simp only [Nat.lt_irrefl, if_false] at h1 ⊢
      refine lexLt_of_le_of_ne as bs h1 ?_
      intro hcon
      exact hne (by rw [hcon])
    · simp [Nat.lt_asymm hab, hab] at h1

/-- Whether `p` is a leading byte sequence of `k`. -/
def pfxOf : Key → Key → Bool
  | [], _ => true
  | _ :: _, [] => false
  | p :: ps, k :: ks => p == k && pfxOf ps ks

/-- Modelled from the spec: the error taxonomy surfaced across the boundary
(spec section 6) — the storage-layer error enumeration is not among the
available sources, only its integration tests are. -/
inductive DbError
  | notFound
  | closed
  | corrupted
  | unknownIterator
  | invalidArgument
  | internal
deriving DecidableEq, Repr

/-- Modelled from the spec: the in-memory Ordered Store (memdb), whose
implementation is not among the available sources. The mapping is an
association list with unique keys, plus the closed flag of the lifecycle
("destroyed/closed explicitly, after which all operations fail"). -/
structure MemDb where
  entries : List (Key × Value)
  closed : Bool
deriving Repr

def MemDb.empty : MemDb := ⟨[], false⟩

/-- First value bound to `k`, scanning left to right. -/
def lookupKey (k : Key) : List (Key × Value) → Option Value
  | [] => none
  | (k', v) :: rest => if k' = k then some v else lookupKey k rest

def MemDb.get (db : MemDb) (k : Key) : Except DbError Value :=
  if db.closed then .error .closed
  else
    match lookupKey k db.entries with
    | some v => .ok v
    | none => .error .notFound

def MemDb.has (db : MemDb) (k : Key) : Except DbError Bool :=
  if db.closed then .error .closed
  else .ok (lookupKey k db.entries).isSome

/-- Insert-or-overwrite: any previous binding of `k` is dropped. -/
def MemDb.put (db : MemDb) (k : Key) (v : Value) : Except DbError MemDb :=
  if db.closed then .error .closed
  else .ok { db with entries := (k, v) :: db.entries.filter (fun e => decide (e.1 ≠ k)) }

/-- Remove `k`; removing an absent key is not an error. -/
def MemDb.delete (db : MemDb) (k : Key) : Except DbError MemDb :=
  if db.closed then .error .closed
  else .ok { db with entries := db.entries.filter (fun e => decide (e.1 ≠ k)) }

def MemDb.close (db : MemDb) : Except DbError MemDb :=
  if db.closed then .error .closed
  else .ok { db with closed := true }

/-- Modelled from the spec: the position of an iterator handle
(spec section 3: before-first, on-entry, exhausted, errored). -/
inductive IterPos
  | beforeFirst
  | onEntry (k : Key) (v : Value)
  | exhausted
  | errored
deriving DecidableEq, Repr

/-- Modelled from the spec: server-side iterator state. `pending` is the
forward cursor over the sorted, start/filter-qualified key space. -/
structure Iter where
  pending : List (Key × Value)
  pos : IterPos
deriving DecidableEq, Repr

def entryLe (x y : Key × Value) : Prop := lexLe x.1 y.1 = true

instance : DecidableRel entryLe := fun x y =>
  inferInstanceAs (Decidable (lexLe x.1 y.1 = true))

instance : IsTotal (Key × Value) entryLe :=
  ⟨fun x y => lexLe_total x.1 y.1⟩

instance : IsTrans (Key × Value) entryLe :=
  ⟨fun _ _ _ h1 h2 => lexLe_trans _ _ _ h1 h2⟩

def sortEntries (l : List (Key × Value)) : List (Key × Value) :=
  List.insertionSort entryLe l

/-- A key qualifies when it is at or above the optional inclusive start
bound and carries the optional required leading bytes. -/
def keyQualifies (start pfx : Option Key) (k : Key) : Bool :=
  (match start with
   | none => true
   | some s => lexLe s k) &&
  (match pfx with
   | none => true
   | some p => pfxOf p k)

/-- Modelled from the spec: iterator creation over the in-memory store —
"iteration is a forward cursor over the sorted key space beginning at the
first qualifying key" (spec section 4.1). -/
def MemDb.newIterator (db : MemDb) (start pfx : Option Key) : Except DbError Iter :=
  if db.closed then .error .closed
  else .ok ⟨(sortEntries db.entries).filter (fun e => keyQualifies start pfx e.1), .beforeFirst⟩

/-- Modelled from the spec: `Next` advances to the next qualifying entry and
returns a boolean "has entry"; `errored` and `exhausted` are terminal for
forward progress (spec section 4.3). -/
def Iter.next (it : Iter) : Bool × Iter :=
  match it.pos with
  | .exhausted => (false, it)
  | .errored => (false, it)
  | _ =>
    match it.pending with
    | [] => (false, { it with pos := .exhausted })
    | (k, v) :: rest => (true, { pending := rest, pos := .onEntry k v })

/-- Modelled from the spec: `Key` is only valid at an `on-entry` position;
elsewhere it "must fail explicitly" (spec section 4.3). -/
def Iter.key (it : Iter) : Except DbError Key :=
  match it.pos with
  | .onEntry k _ => .ok k
  | _ => .error .internal

/-- Modelled from the spec: `Value` is only valid at an `on-entry`
position. -/
def Iter.value (it : Iter) : Except DbError Value :=
  match it.pos with
  | .onEntry _ v => .ok v
  | _ => .error .internal

/-- Positions from which `Next` can still move forward. -/
def IterPos.active : IterPos → Bool
  | .beforeFirst => true
  | .onEntry _ _ => true
  | .exhausted => false
  | .errored => false

def drainAux : Nat → Iter → List (Key × Value)
  | 0, _ => []
  | n + 1, it =>
    match it.next with
    | (false, _) => []
    | (true, it2) =>
      match it2.pos with
      | .onEntry k v => (k, v) :: drainAux n it2
      | _ => []

/-- All entries an iterator yields through repeated `Next` calls, with the
key/value read at each `on-entry` stop. -/
def Iter.drain (it : Iter) : List (Key × Value) :=
  drainAux (it.pending.length + 1) it

def stepMany : Nat → Iter → Iter
  | 0, it => it
  | n + 1, it => stepMany n it.next.2

/-- Modelled from the spec: the Remote Store Server (rpcdb server), whose
implementation is not among the available sources — a wrapped store plus
the table of live iterator handles, with server-generated monotonically
increasing handle ids (spec section 4.3). -/
structure RpcServer where
  db : MemDb
  table : List (Nat × Iter)
  nextHandle : Nat
deriving Repr

def lookupHandle (h : Nat) : List (Nat × Iter) → Option Iter
  | [] => none
  | (h', it) :: rest => if h' = h then some it else lookupHandle h rest

def updateHandle (h : Nat) (it : Iter) : List (Nat × Iter) → List (Nat × Iter)
  | [] => []
  | (h', it') :: rest =>
    if h' = h then (h', it) :: rest else (h', it') :: updateHandle h it rest

/-- Registers a fresh iterator under a fresh handle and returns the
handle. -/
def RpcServer.newIterator (s : RpcServer) (start pfx : Option Key) :
    Except DbError (Nat × RpcServer) :=
  match s.db.newIterator start pfx with
  | .error e => .error e
  | .ok it =>
    .ok (s.nextHandle,
      { s with table := (s.nextHandle, it) :: s.table, nextHandle := s.nextHandle + 1 })

/-- Modelled from the spec: `Next(handle)` — an absent handle fails with
`UnknownIterator`; otherwise the cursor advances and the boolean "has
entry" is returned (spec section 4.3). -/
def RpcServer.iterNext (s : RpcServer) (h : Nat) : Except DbError (Bool × RpcServer) :=
  match lookupHandle h s.table with
  | none => .error .unknownIterator
  | some it =>
    let (b, it2) := it.next
    .ok (b, { s with table := updateHandle h it2 s.table })

def RpcServer.iterKey (s : RpcServer) (h : Nat) : Except DbError Key :=
  match lookupHandle h s.table with
  | none => .error .unknownIterator
  | some it => it.key

def RpcServer.iterValue (s : RpcServer) (h : Nat) : Except DbError Value :=
  match lookupHandle h s.table with
  | none => .error .unknownIterator
  | some it => it.value

/-- Modelled from the spec: `Release(handle)` removes the handle from the
table; releasing an already-released or unknown handle is tolerated as a
no-op rather than a hard failure (spec section 4.3). -/
def RpcServer.iterRelease (s : RpcServer) (h : Nat) : Except DbError RpcServer :=
  .ok { s with table := s.table.filter (fun e => decide (e.1 ≠ h)) }

/-- Modelled from the spec: the tri-state corruption flag owned by a
Corruption-Guard instance (spec section 3). -/
inductive GuardFlag
  | healthy
  | closed
  | corrupted
deriving DecidableEq, Repr

/-- The capability-set operations intercepted by the Corruption-Guard
(spec section 4.1). -/
inductive GuardOp
  | has
  | get
  | put
  | delete
  | newIterator
  | compact
  | healthCheck
  | close
deriving DecidableEq, Repr

/-- Outcome of the forwarded call on the wrapped store, as observed by the
guard; the guard wraps any Ordered-Store-capable object, so the outcome is
a parameter. -/
inductive InnerOutcome
  | ok
  | err (e : DbError)
deriving DecidableEq, Repr

/-- Modelled from the spec: one Corruption-Guard interception
(spec section 4.2) — check the flag first; forward only when healthy;
pass `NotFound` through unchanged; convert any other failure into the
sticky `corrupted` state; a successful `close` moves healthy to closed. -/
def guardStep (flag : GuardFlag) (op : GuardOp) (inner : InnerOutcome) :
    Except DbError Unit × GuardFlag :=
  match flag with
  | .corrupted => (.error .corrupted, .corrupted)
  | .closed => (.error .closed, .closed)
  | .healthy =>
    match inner with
    | .ok =>
      (.ok (),
        match op with
        | .close => .closed
        | _ => .healthy)
    | .err .notFound => (.error .notFound, .healthy)
    | .err _ => (.error .corrupted, .corrupted)

/-- Runs a sequence of guarded operations, threading the flag; returns the
operation outcomes and the final flag. -/
def guardRun (flag : GuardFlag) : List (GuardOp × InnerOutcome) →
    List (Except DbError Unit) × GuardFlag
  | [] => ([], flag)
  | (op, inn) :: rest =>
    let (r, f2) := guardStep flag op inn
    let (rs, ff) := guardRun f2 rest
    (r :: rs, ff)

/-- The composed stack reached through the remote client: the client-side
Corruption-Guard wrapping the remote client, which forwards 1:1 to the
server owning the in-memory store (spec section 2). -/
structure Sys where
  flag : GuardFlag
  server : RpcServer
deriving Repr

def Sys.init : Sys := ⟨.healthy, ⟨MemDb.empty, [], 0⟩⟩

/-- Guard-intercepted result classification shared by the point
operations: `NotFound` passes through, any other failure corrupts. -/
def Sys.classify (s : Sys) (e : DbError) : Except DbError Unit × Sys :=
  if e = .notFound then (.error e, s)
  else (.error .corrupted, { s with flag := .corrupted })

def Sys.put (s : Sys) (k : Key) (v : Value) : Except DbError Unit × Sys :=
  match s.flag with
  | .corrupted => (.error .corrupted, s)
  | .closed => (.error .closed, s)
  | .healthy =>
    match s.server.db.put k v with
    | .ok db2 => (.ok (), { s with server := { s.server with db := db2 } })
    | .error e => s.classify e

def Sys.get (s : Sys) (k : Key) : Except DbError Value × Sys :=
  match s.flag with
  | .corrupted => (.error .corrupted, s)
  | .closed => (.error .closed, s)
  | .healthy =>
    match s.server.db.get k with
    | .ok v => (.ok v, s)
    | .error e =>
      if e = .notFound then (.error e, s)
      else (.error .corrupted, { s with flag := .corrupted })

def Sys.delete (s : Sys) (k : Key) : Except DbError Unit × Sys :=
  match s.flag with
  | .corrupted => (.error .corrupted, s)
  | .closed => (.error .closed, s)
  | .healthy =>
    match s.server.db.delete k with
    | .ok db2 => (.ok (), { s with server := { s.server with db := db2 } })
    | .error e => s.classify e

def Sys.close (s : Sys) : Except DbError Unit × Sys :=
  match s.flag with
  | .corrupted => (.error .corrupted, s)
  | .closed => (.error .closed, s)
  | .healthy =>
    match s.server.db.close with
    | .ok db2 => (.ok (), { flag := .closed, server := { s.server with db := db2 } })
    | .error e => s.classify e

def Sys.newIterator (s : Sys) (start pfx : Option Key) : Except DbError Nat × Sys :=
  match s.flag with
  | .corrupted => (.error .corrupted, s)
  | .closed => (.error .closed, s)
  | .healthy =>
    match s.server.newIterator start pfx with
    | .ok (h, srv2) => (.ok h, { s with server := srv2 })
    | .error e =>
      if e = .notFound then (.error e, s)
      else (.error .corrupted, { s with flag := .corrupted })

/-- The client iterator proxy forwards each call to the server using the
bound handle; an `UnknownIterator` protocol-usage error is not escalated
to corruption (spec section 7). -/
def Sys.iterNext (s : Sys) (h : Nat) : Except DbError Bool × Sys :=
  match s.server.iterNext h with
  | .ok (b, srv2) => (.ok b, { s with server := srv2 })
  | .error e => (.error e, s)

def Sys.iterKey (s : Sys) (h : Nat) : Except DbError Key × Sys :=
  (s.server.iterKey h, s)

def Sys.iterValue (s : Sys) (h : Nat) : Except DbError Value × Sys :=
  (s.server.iterValue h, s)

def Sys.iterRelease (s : Sys) (h : Nat) : Except DbError Unit × Sys :=
  match s.server.iterRelease h with
  | .ok srv2 => (.ok (), { s with server := srv2 })
  | .error e => (.error e, s)

def putStep (s : Sys) (kv : Key × Value) : Sys :=
  (s.put kv.1 kv.2).2

/-- The store contents reached by issuing the given `Put` calls, in order,
through the remote client on a fresh stack. -/
def applyPuts (ps : List (Key × Value)) : Sys :=
  ps.foldl putStep Sys.init

/-- The value of the most recent `Put` of `k` in the sequence, if any. -/
def lastPutValue (k : Key) (ps : List (Key × Value)) : Option Value :=
  lookupKey k ps.reverse

def keysNodup (l : List (Key × Value)) : Prop :=
  (l.map Prod.fst).Nodup

/-! Embedding of `key/secp256k1/mod.rs`: the `KeyType` enumeration and its
string conversions, and the `Info` record with its two-level `default`. -/

inductive KeyType
  | hot
  | awsKms
  | unknown (s : String)
deriving DecidableEq, Repr

/-- Embedding of `impl From<&str> for KeyType`: `"hot"`, `"aws-kms"` and
`"aws_kms"` map to the named members; any other string becomes
`Unknown(other)`. -/
def KeyType.ofStr (s : String) : KeyType :=
  if s = "hot" then .hot
  else if s = "aws-kms" then .awsKms
  else if s = "aws_kms" then .awsKms
  else .unknown s

/-- Embedding of `impl FromStr for KeyType`: the error type is
`Infallible` (embedded as `Empty`), and the body is `Ok(KeyType::from(s))`. -/
def KeyType.from_str (s : String) : Except Empty KeyType :=
  .ok (KeyType.ofStr s)

/-- Embedding of `KeyType::as_str`. -/
def KeyType.as_str : KeyType → String
  | .hot => "hot"
  | .awsKms => "aws-kms"
  | .unknown s => s

/-- Modelled from the spec: `ids::short::Id` is outside the storage core
("key-management utilities" are external collaborators) and its definition
is not among the available sources; it is a fixed-width byte identifier
whose `empty` value is all zeroes. -/
structure ShortId where
  bytes : List Nat
deriving DecidableEq, Repr

def ShortId.empty : ShortId := ⟨List.replicate 20 0⟩

structure ChainAddresses where
  x_address : String
  p_address : String
  c_address : String
deriving DecidableEq, Repr

/-- Embedding of `key::secp256k1::Info`; `HashMap<u32, ChainAddresses>` is
embedded as an association list and `primitive_types::H160` as its numeric
value. -/
structure Info where
  id : Option String
  key_type : KeyType
  mnemonic_phrase : Option String
  private_key_cb58 : Option String
  private_key_hex : Option String
  addresses : List (Nat × ChainAddresses)
  short_address : ShortId
  eth_address : String
  h160_address : Nat
deriving DecidableEq, Repr

/-- Embedding of the inherent method `Info::default` (the `impl Info`
block). -/
def Info.default : Info :=
  { id := none
    key_type := KeyType.unknown ""
    mnemonic_phrase := none
    private_key_cb58 := none
    private_key_hex := none
    addresses := []
    short_address := ShortId.empty
    eth_address := ""
    h160_address := 0 }

/-- Embedding of `impl Default for Info`: its body is `Self::default()`,
and Rust path resolution prefers an inherent associated function over a
trait method of the same name, so the call resolves to the terminating
inherent `Info::default` above rather than to the trait method itself. -/
def Info.traitDefault : Info := Info.default

/-! Embedding of `jsonrpc/platformvm.rs`: the `GetTx` response records and
their two-level `default`. -/

/-- Modelled from the spec: `jsonrpc::ResponseError` belongs to the
"blockchain JSON-RPC response parsing types", external collaborators whose
definition is not among the available sources; only its presence or
absence (`Option`) matters here. -/
structure ResponseError where
  code : Int
  message : String
deriving DecidableEq, Repr

/-- Modelled from the spec: `platformvm::txs::Tx` is outside the storage
core and its definition is not among the available sources; it is treated
as an opaque record with a default value. -/
structure Tx where
deriving DecidableEq, Repr

def Tx.default : Tx := {}

/-- Embedding of `jsonrpc::platformvm::GetTxResult`. -/
structure GetTxResult where
  tx : Tx
  encoding : String
deriving DecidableEq, Repr

/-- Embedding of the inherent method `GetTxResult::default`. -/
def GetTxResult.default : GetTxResult :=
  { tx := Tx.default
    encoding := "" }

/-- Embedding of `impl Default for GetTxResult`: its body `Self::default()`
resolves, by Rust's preference for inherent associated functions, to the
terminating inherent `GetTxResult::default` above. -/
def GetTxResult.traitDefault : GetTxResult := GetTxResult.default

/-- Embedding of `jsonrpc::platformvm::GetTxResponse` (`id` is a `u32`). -/
structure GetTxResponse where
  jsonrpc : String
  id : Nat
  result : Option GetTxResult
  error : Option ResponseError
deriving DecidableEq, Repr

/-- Embedding of the inherent method `GetTxResponse::default`. -/
def GetTxResponse.default : GetTxResponse :=
  { jsonrpc := "2.0"
    id := 1
    result := none
    error := none }

/-- Embedding of `impl Default for GetTxResponse`: its body
`Self::default()` resolves, by Rust's preference for inherent associated
functions, to the terminating inherent `GetTxResponse::default` above. -/
def GetTxResponse.traitDefault : GetTxResponse := GetTxResponse.default

/-- The store of the prefix-filter scenario: `"hello1" → "world1"`,
`"goodbye" → "world2"`, `"joy" → "world3"` (ASCII bytes). -/
def exDbPfx : MemDb :=
  ⟨[([104, 101, 108, 108, 111, 49], [119, 111, 114, 108, 100, 49]),
    ([103, 111, 111, 100, 98, 121, 101], [119, 111, 114, 108, 100, 50]),
    ([106, 111, 121], [119, 111, 114, 108, 100, 51])], false⟩

/-- The store of the start-bound scenario: `"hello1" → "world1"`,
`"goodbye" → "world2"` (ASCII bytes). -/
def exDbStart : MemDb :=
  ⟨[([104, 101, 108, 108, 111, 49], [119, 111, 114, 108, 100, 49]),
    ([103, 111, 111, 100, 98, 121, 101], [119, 111, 114, 108, 100, 50])], false⟩

/-! Helper lemmas about lookup, filtering, sorting and draining. -/

theorem lookupKey_eq_none_iff (k : Key) :
    ∀ l : List (Key × Value), lookupKey k l = none ↔ ∀ e ∈ l, e.1 ≠ k
  | [] => by simp [lookupKey]
  | (k1, v1) :: rest => by
    by_cases h : k1 = k
    · subst h
      simp [lookupKey]
    · simp [lookupKey, h, lookupKey_eq_none_iff k rest]

theorem lookupKey_filter_self (k : Key) (l : List (Key × Value)) :
    lookupKey k (l.filter (fun e => decide (e.1 ≠ k))) = none := by
  rw [lookupKey_eq_none_iff]
  intro e he
  simpa using (List.mem_filter.mp he).2

theorem lookupKey_filter_other (k k0 : Key) (hne : k ≠ k0) :
    ∀ l : List (Key × Value),
      lookupKey k (l.filter (fun e => decide (e.1 ≠ k0))) = lookupKey k l
  | [] => rfl
  | (k1, v1) :: rest => by
    by_cases h1 : k1 = k0
    · rw [show ((k1, v1) :: rest).filter (fun e => decide (e.1 ≠ k0))
            = rest.filter (fun e => decide (e.1 ≠ k0)) from by
          simp [List.filter_cons, h1]]
      rw [lookupKey_filter_other k k0 hne rest]
      have hk1 : k1 ≠ k := fun hc => hne ((hc.symm).trans h1)
      rw [lookupKey, if_neg hk1]
    · rw [show ((k1, v1) :: rest).filter (fun e => decide (e.1 ≠ k0))
            = (k1, v1) :: rest.filter (fun e => decide (e.1 ≠ k0)) from by
          simp [List.filter_cons, h1]]
      by_cases h2 : k1 = k
      · rw [lookupKey, if_pos h2, lookupKey, if_pos h2]
      · rw [lookupKey, if_neg h2, lookupKey, if_neg h2]
        exact lookupKey_filter_other k k0 hne rest

theorem filter_ne_of_lookup_none (k : Key) (l : List (Key × Value))
    (h : lookupKey k l = none) : l.filter (fun e => decide (e.1 ≠ k)) = l := by
  rw [List.filter_eq_self]
  intro e he
  simpa using (lookupKey_eq_none_iff k l).mp h e he

theorem mem_iff_lookupKey :
    ∀ l : List (Key × Value), keysNodup l → ∀ (k : Key) (v : Value),
      ((k, v) ∈ l ↔ lookupKey k l = some v)
  | [], _, k, v => by simp [lookupKey]
  | (k1, v1) :: rest, hnd, k, v => by
    have hnd2 : keysNodup rest := by
      simp only [keysNodup, List.map_cons, List.nodup_cons] at hnd
      exact hnd.2
    have hk1 : k1 ∉ rest.map Prod.fst := by
      simp only [keysNodup, List.map_cons, List.nodup_cons] at hnd
      exact hnd.1
    by_cases h : k1 = k
    · subst h
      rw [lookupKey, if_pos rfl]
      simp only [List.mem_cons, Prod.mk.injEq, Option.some.injEq]
      constructor
      · rintro (⟨-, rfl⟩ | hmem)
        · rfl
        · exact absurd (List.mem_map_of_mem Prod.fst hmem) hk1
      · rintro rfl
        exact Or.inl ⟨trivial, rfl⟩
    · rw [lookupKey, if_neg h]
      rw [← mem_iff_lookupKey rest hnd2 k v]
      simp only [List.mem_cons, Prod.mk.injEq]
      constructor
      · rintro (⟨h1, -⟩ | hmem)
        · exact absurd h1.symm h
        · exact hmem
      · exact Or.inr

theorem keysNodup_put (k : Key) (v : Value) (l : List (Key × Value)) (hnd : keysNodup l) :
    keysNodup ((k, v) :: l.filter (fun e => decide (e.1 ≠ k))) := by
  simp only [keysNodup, List.map_cons, List.nodup_cons]
  constructor
  · intro hmem
    obtain ⟨e, hel, hek⟩ := List.mem_map.mp hmem
    have := (List.mem_filter.mp hel).2
    simp only [decide_eq_true_eq] at this
    exact this hek
  · exact hnd.sublist ((List.filter_sublist l).map Prod.fst)

theorem lookupKey_append (k : Key) :
    ∀ l1 l2 : List (Key × Value),
      lookupKey k (l1 ++ l2) =
        match lookupKey k l1 with
        | some v => some v
        | none => lookupKey k l2
  | [], _ => rfl
  | (k1, v1) :: rest, l2 => by
    by_cases h : k1 = k
    · simp [lookupKey, h]
    · simp [lookupKey, h, lookupKey_append k rest l2]

theorem lastPutValue_cons (k k0 : Key) (v0 : Value) (ps : List (Key × Value)) :
    lastPutValue k ((k0, v0) :: ps) =
      match lastPutValue k ps with
      | some v => some v
      | none => if k0 = k then some v0 else none := by
  simp only [lastPutValue, List.reverse_cons]
  rw [lookupKey_append]
  rcases lookupKey k ps.reverse with _ | v <;> simp [lookupKey]

theorem lookupHandle_filter (h : Nat) :
    ∀ t : List (Nat × Iter),
      lookupHandle h (t.filter (fun e => decide (e.1 ≠ h))) = none
  | [] => rfl
  | (h1, it1) :: rest => by
    by_cases hh : h1 = h
    · rw [show ((h1, it1) :: rest).filter (fun e => decide (e.1 ≠ h))
            = rest.filter (fun e => decide (e.1 ≠ h)) from by
          simp [List.filter_cons, hh]]
      exact lookupHandle_filter h rest
    · rw [show ((h1, it1) :: rest).filter (fun e => decide (e.1 ≠ h))
            = (h1, it1) :: rest.filter (fun e => decide (e.1 ≠ h)) from by
          simp [List.filter_cons, hh]]
      rw [lookupHandle, if_neg hh]
      exact lookupHandle_filter h rest

theorem filter_idem {α : Type} (p : α → Bool) :
    ∀ l : List α, (l.filter p).filter p = l.filter p
  | [] => rfl
  | a :: rest => by
    by_cases h : p a
    · simp [List.filter_cons, h, filter_idem p rest]
    · simp only [List.filter_cons, h]
      exact filter_idem p rest

theorem sortEntries_perm (l : List (Key × Value)) : (sortEntries l).Perm l :=
  List.perm_insertionSort entryLe l

theorem sortEntries_pairwise (l : List (Key × Value)) :
    (sortEntries l).Pairwise entryLe :=
  List.sorted_insertionSort entryLe l

theorem keysNodup_sortEntries (l : List (Key × Value)) (hnd : keysNodup l) :
    keysNodup (sortEntries l) :=
  (((sortEntries_perm l).map Prod.fst).nodup_iff).mpr hnd

theorem mem_sortEntries (l : List (Key × Value)) (e : Key × Value) :
    e ∈ sortEntries l ↔ e ∈ l :=
  (sortEntries_perm l).mem_iff

theorem pairwise_lexLt_keys (l : List (Key × Value))
    (hs : l.Pairwise entryLe) (hnd : keysNodup l) :
    (l.map Prod.fst).Pairwise (fun a b => lexLt a b = true) := by
  rw [List.pairwise_map]
  have hne : l.Pairwise (fun x y => x.1 ≠ y.1) := by
    have := (List.pairwise_map (l := l) (f := Prod.fst)
      (R := fun a b : Key => a ≠ b)).mp hnd
    exact this
  exact (hs.and hne).imp (fun hx => lexLt_of_le_of_ne _ _ hx.1 hx.2)

theorem drainAux_active :
    ∀ (L : List (Key × Value)) (p : IterPos), p.active = true →
      drainAux (L.length + 1) ⟨L, p⟩ = L
  | [], p, hp => by
    cases p with
    | beforeFirst => rfl
    | onEntry k v => rfl
    | exhausted => simp [IterPos.active] at hp
    | errored => simp [IterPos.active] at hp
  | (k, v) :: rest, p, hp => by
    have ih := drainAux_active rest (.onEntry k v) rfl
    cases p with
    | beforeFirst => exact congrArg (fun t => (k, v) :: t) ih
    | onEntry k2 v2 => exact congrArg (fun t => (k, v) :: t) ih
    | exhausted => simp [IterPos.active] at hp
    | errored => simp [IterPos.active] at hp

theorem drain_beforeFirst (L : List (Key × Value)) :
    Iter.drain ⟨L, .beforeFirst⟩ = L :=
  drainAux_active L .beforeFirst rfl

theorem stepMany_active :
    ∀ (L : List (Key × Value)) (p : IterPos), p.active = true →
      stepMany (L.length + 1) ⟨L, p⟩ = ⟨[], .exhausted⟩
  | [], p, hp => by
    cases p with
    | beforeFirst => rfl
    | onEntry k v => rfl
    | exhausted => simp [IterPos.active] at hp
    | errored => simp [IterPos.active] at hp
  | (k, v) :: rest, p, hp => by
    have ih := stepMany_active rest (.onEntry k v) rfl
    cases p with
    | beforeFirst => exact ih
    | onEntry k2 v2 => exact ih
    | exhausted => simp [IterPos.active] at hp
    | errored => simp [IterPos.active] at hp

theorem next_at_exhausted (it : Iter) (h : it.pos = .exhausted) :
    it.next = (false, it) := by
  obtain ⟨L, p⟩ := it
  cases p <;> simp_all [Iter.next]

theorem next_at_errored (it : Iter) (h : it.pos = .errored) :
    it.next = (false, it) := by
  obtain ⟨L, p⟩ := it
  cases p <;> simp_all [Iter.next]

/-- Invariant of a healthy stack under a sequence of `Put` calls: the guard
stays healthy, the store stays open, the handle table and handle counter
are untouched, key uniqueness is preserved, and each key reads back as its
most recent `Put` (or its old binding when never re-put). -/
theorem putsFold :
    ∀ (ps : List (Key × Value)) (s : Sys),
      s.flag = .healthy → s.server.db.closed = false →
      (ps.foldl putStep s).flag = .healthy ∧
      (ps.foldl putStep s).server.db.closed = false ∧
      (ps.foldl putStep s).server.table = s.server.table ∧
      (ps.foldl putStep s).server.nextHandle = s.server.nextHandle ∧
      (keysNodup s.server.db.entries →
        keysNodup (ps.foldl putStep s).server.db.entries) ∧
      ∀ k, lookupKey k (ps.foldl putStep s).server.db.entries =
        match lastPutValue k ps with
        | some v => some v
        | none => lookupKey k s.server.db.entries
  | [], s, hf, hc => by
    refine ⟨hf, hc, rfl, rfl, fun hn => hn, fun k => ?_⟩
    simp [lastPutValue, lookupKey]
  | (k0, v0) :: rest, s, hf, hc => by
    have hstep : putStep s (k0, v0) =
        { s with server := { s.server with db :=
            { s.server.db with entries :=
                (k0, v0) :: s.server.db.entries.filter (fun e => decide (e.1 ≠ k0)) } } } := by
      simp [putStep, Sys.put, hf, MemDb.put, hc]
    have hrec := putsFold rest (putStep s (k0, v0))
      (by rw [hstep]; exact hf) (by rw [hstep]; exact hc)
    obtain ⟨r1, r2, r3, r4, r5, r6⟩ := hrec
    rw [List.foldl_cons]
    refine ⟨r1, r2, by rw [r3, hstep], by rw [r4, hstep], fun hn => ?_, fun k => ?_⟩
    · refine r5 ?_
      rw [hstep]
      exact keysNodup_put k0 v0 _ hn
    · rw [r6 k, lastPutValue_cons]
      rcases hlast : lastPutValue k rest with _ | v

      case none =>
        rw [hstep]
        show lookupKey k ((k0, v0) :: s.server.db.entries.filter (fun e => decide (e.1 ≠ k0))) = _
        by_cases hk : k0 = k
        · subst hk
          rw [lookupKey, if_pos rfl]
          simp
        · rw [lookupKey, if_neg hk]
          rw [lookupKey_filter_other k k0 (fun hc2 => hk hc2.symm)]
          simp [hk]
      case some =>
        rfl

/-- On a healthy stack over an open store, iterator creation registers the
sorted, qualified cursor under the next fresh handle. -/
theorem newIterator_healthy (s : Sys) (hf : s.flag = .healthy)
    (hc : s.server.db.closed = false) (start pfx : Option Key) :
    s.newIterator start pfx =
      (.ok s.server.nextHandle,
       { s with server := { s.server with
           table := (s.server.nextHandle,
             ⟨(sortEntries s.server.db.entries).filter
                (fun e => keyQualifies start pfx e.1), .beforeFirst⟩) :: s.server.table,
           nextHandle := s.server.nextHandle + 1 } }) := by
  simp [Sys.newIterator, hf, RpcServer.newIterator, MemDb.newIterator, hc]

/-- After consuming its whole pending list, a fresh cursor's `Next` keeps
returning false at an unchanged state. -/
theorem stepMany_beforeFirst_next (L : List (Key × Value)) :
    (stepMany ((⟨L, .beforeFirst⟩ : Iter).pending.length + 1) (⟨L, .beforeFirst⟩ : Iter)).next =
      (false,
        stepMany ((⟨L, .beforeFirst⟩ : Iter).pending.length + 1) (⟨L, .beforeFirst⟩ : Iter)) := by
  have hs := stepMany_active L .beforeFirst rfl
  show (stepMany (L.length + 1) ⟨L, .beforeFirst⟩).next =
    (false, stepMany (L.length + 1) ⟨L, .beforeFirst⟩)
  rw [hs]
  rfl

/-! The claims. -/

/-- C1: for every sequence of `Put` calls issued through the remote client,
a full iteration (no start, no prefix) is handed out under a fresh handle
and yields the put keys in strictly ascending byte-lexicographic order,
each exactly once, each with the value of its most recent `Put`. -/
theorem full_iteration_correct (ps : List (Key × Value)) :
    ∃ it : Iter,
      ((applyPuts ps).newIterator none none).1 = .ok 0 ∧
      lookupHandle 0 ((applyPuts ps).newIterator none none).2.server.table = some it ∧
      it.drain = it.pending ∧
      (it.drain.map Prod.fst).Pairwise (fun a b => lexLt a b = true) ∧
      (∀ k v, (k, v) ∈ it.drain ↔ lastPutValue k ps = some v) := by
  obtain ⟨i1, i2, i3, i4, i5, i6⟩ := putsFold ps Sys.init rfl rfl
  have hf : (applyPuts ps).flag = .healthy := i1
  have hc : (applyPuts ps).server.db.closed = false := i2
  have ht : (applyPuts ps).server.table = [] := i3
  have hn : (applyPuts ps).server.nextHandle = 0 := i4
  have hnd : keysNodup (applyPuts ps).server.db.entries := by
    refine i5 ?_
    simp [keysNodup, Sys.init, MemDb.empty]
  have hlook : ∀ k, lookupKey k (applyPuts ps).server.db.entries = lastPutValue k ps := by
    intro k
    have h6 : lookupKey k (applyPuts ps).server.db.entries =
        match lastPutValue k ps with
        | some v => some v
        | none => lookupKey k Sys.init.server.db.entries := i6 k
    rcases h : lastPutValue k ps with _ | v
    · rw [h] at h6
      simpa [lookupKey] using h6
    · rw [h] at h6
      simpa using h6
  have hni := newIterator_healthy (applyPuts ps) hf hc none none
  have hq : (fun (e : Key × Value) => keyQualifies none none e.1) =
      (fun _ => true) := funext (fun _ => rfl)
  refine ⟨⟨sortEntries (applyPuts ps).server.db.entries, .beforeFirst⟩, ?_, ?_,
    drain_beforeFirst _, ?_, ?_⟩
  · rw [hni]
    simp [hn]
  · rw [hni]
    simp only []
    rw [hn, ht, hq, List.filter_true]
    simp [lookupHandle]
  · rw [drain_beforeFirst]
    exact pairwise_lexLt_keys _ (sortEntries_pairwise _) (keysNodup_sortEntries _ hnd)
  · intro k v
    rw [drain_beforeFirst, mem_sortEntries, mem_iff_lookupKey _ hnd k v, hlook k]

/-- C1 witness: the end-to-end scenario — `hello2` put before `hello1`
(ASCII bytes), then a full iteration. -/
theorem full_iteration_correct_witness :
    ∃ it : Iter,
      ((applyPuts [([104, 101, 108, 108, 111, 50], [119, 111, 114, 108, 100, 50]),
          ([104, 101, 108, 108, 111, 49], [119, 111, 114, 108, 100, 49])]).newIterator
        none none).1 = .ok 0 ∧
      lookupHandle 0
        ((applyPuts [([104, 101, 108, 108, 111, 50], [119, 111, 114, 108, 100, 50]),
            ([104, 101, 108, 108, 111, 49], [119, 111, 114, 108, 100, 49])]).newIterator
          none none).2.server.table = some it ∧
      it.drain = it.pending ∧
      (it.drain.map Prod.fst).Pairwise (fun a b => lexLt a b = true) ∧
      (∀ k v, (k, v) ∈ it.drain ↔
        lastPutValue k [([104, 101, 108, 108, 111, 50], [119, 111, 114, 108, 100, 50]),
          ([104, 101, 108, 108, 111, 49], [119, 111, 114, 108, 100, 49])] = some v) :=
  full_iteration_correct
    [([104, 101, 108, 108, 111, 50], [119, 111, 114, 108, 100, 50]),
     ([104, 101, 108, 108, 111, 49], [119, 111, 114, 108, 100, 49])]

/-- C3: an iterator with prefix `p` yields exactly the stored keys whose
leading bytes equal `p`, in ascending byte-lexicographic order, and then
reports exhaustion. -/
theorem pfx_iteration_correct (db : MemDb) (p : Key)
    (hopen : db.closed = false) (hnd : keysNodup db.entries) :
    ∃ it : Iter,
      db.newIterator none (some p) = .ok it ∧
      it.drain = it.pending ∧
      (it.drain.map Prod.fst).Pairwise (fun a b => lexLt a b = true) ∧
      (∀ k v, (k, v) ∈ it.drain ↔ (lookupKey k db.entries = some v ∧ pfxOf p k = true)) ∧
      (stepMany (it.pending.length + 1) it).next =
        (false, stepMany (it.pending.length + 1) it) := by
  refine ⟨⟨(sortEntries db.entries).filter (fun e => keyQualifies none (some p) e.1),
    .beforeFirst⟩, ?_, drain_beforeFirst _, ?_, ?_, stepMany_beforeFirst_next _⟩
  · simp [MemDb.newIterator, hopen]
  · rw [drain_beforeFirst]
    refine pairwise_lexLt_keys _ ?_ ?_
    · exact (sortEntries_pairwise db.entries).sublist (List.filter_sublist _)
    · exact (keysNodup_sortEntries db.entries hnd).sublist
        ((List.filter_sublist _).map Prod.fst)
  · intro k v
    rw [drain_beforeFirst, List.mem_filter, mem_sortEntries, mem_iff_lookupKey _ hnd k v]
    simp [keyQualifies]

/-- C3 witness: the spec scenario — entries `hello1`, `goodbye`, `joy` and
prefix `"h"` (byte 104). -/
theorem pfx_iteration_correct_witness :
    exDbPfx.closed = false ∧ keysNodup exDbPfx.entries ∧
    (∃ it : Iter,
      exDbPfx.newIterator none (some [104]) = .ok it ∧
      it.drain = it.pending ∧
      (it.drain.map Prod.fst).Pairwise (fun a b => lexLt a b = true) ∧
      (∀ k v, (k, v) ∈ it.drain ↔
        (lookupKey k exDbPfx.entries = some v ∧ pfxOf [104] k = true)) ∧
      (stepMany (it.pending.length + 1) it).next =
        (false, stepMany (it.pending.length + 1) it)) :=
  ⟨rfl, by unfold keysNodup; decide,
   pfx_iteration_correct exDbPfx [104] rfl (by unfold keysNodup; decide)⟩

/-- C4: an iterator with inclusive start bound `s` yields exactly the
stored keys `k` with `s ≤ k`, in ascending byte-lexicographic order. -/
theorem start_iteration_correct (db : MemDb) (s : Key)
    (hopen : db.closed = false) (hnd : keysNodup db.entries) :
    ∃ it : Iter,
      db.newIterator (some s) none = .ok it ∧
      it.drain = it.pending ∧
      (it.drain.map Prod.fst).Pairwise (fun a b => lexLt a b = true) ∧
      (∀ k v, (k, v) ∈ it.drain ↔ (lookupKey k db.entries = some v ∧ lexLe s k = true)) := by
  refine ⟨⟨(sortEntries db.entries).filter (fun e => keyQualifies (some s) none e.1),
    .beforeFirst⟩, ?_, drain_beforeFirst _, ?_, ?_⟩
  · simp [MemDb.newIterator, hopen]
  · rw [drain_beforeFirst]
    refine pairwise_lexLt_keys _ ?_ ?_
    · exact (sortEntries_pairwise db.entries).sublist (List.filter_sublist _)
    · exact (keysNodup_sortEntries db.entries hnd).sublist
        ((List.filter_sublist _).map Prod.fst)
  · intro k v
    rw [drain_beforeFirst, List.mem_filter, mem_sortEntries, mem_iff_lookupKey _ hnd k v]
    simp [keyQualifies, Bool.and_true]

/-- C4 witness: the spec scenario — entries `goodbye`, `hello1` and start
bound `"goodbye"` (ASCII bytes). -/
theorem start_iteration_correct_witness :
    exDbStart.closed = false ∧ keysNodup exDbStart.entries ∧
    (∃ it : Iter,
      exDbStart.newIterator (some [103, 111, 111, 100, 98, 121, 101]) none = .ok it ∧
      it.drain = it.pending ∧
      (it.drain.map Prod.fst).Pairwise (fun a b => lexLt a b = true) ∧
      (∀ k v, (k, v) ∈ it.drain ↔
        (lookupKey k exDbStart.entries = some v ∧
         lexLe [103, 111, 111, 100, 98, 121, 101] k = true))) :=
  ⟨rfl, by unfold keysNodup; decide,
   start_iteration_correct exDbStart [103, 111, 111, 100, 98, 121, 101] rfl
     (by unfold keysNodup; decide)⟩

/-- C5: after `Release(h)` the handle is gone from the table, subsequent
`IteratorNext`/`Key`/`Value` calls naming `h` fail with `UnknownIterator`,
and a second `Release` of `h` succeeds as a no-op. -/
theorem release_handle_hygiene (s : RpcServer) (h : Nat) :
    ∃ s2 : RpcServer, s.iterRelease h = .ok s2 ∧
      lookupHandle h s2.table = none ∧
      s2.iterNext h = .error .unknownIterator ∧
      s2.iterKey h = .error .unknownIterator ∧
      s2.iterValue h = .error .unknownIterator ∧
      s2.iterRelease h = .ok s2 := by
  have hl := lookupHandle_filter h s.table
  simp only [ne_eq, decide_not] at hl
  refine ⟨{ s with table := s.table.filter (fun e => decide (e.1 ≠ h)) },
    rfl, lookupHandle_filter h s.table, ?_, ?_, ?_, ?_⟩
  · simp [RpcServer.iterNext, hl]
  · simp [RpcServer.iterKey, hl]
  · simp [RpcServer.iterValue, hl]
  · simp [RpcServer.iterRelease, filter_idem]

/-- C5 witness: a server with one live handle (id 5), released. -/
theorem release_handle_hygiene_witness :
    ∃ s2 : RpcServer,
      RpcServer.iterRelease ⟨MemDb.empty, [(5, ⟨[], .beforeFirst⟩)], 6⟩ 5 = .ok s2 ∧
      lookupHandle 5 s2.table = none ∧
      s2.iterNext 5 = .error .unknownIterator ∧
      s2.iterKey 5 = .error .unknownIterator ∧
      s2.iterValue 5 = .error .unknownIterator ∧
      s2.iterRelease 5 = .ok s2 :=
  release_handle_hygiene ⟨MemDb.empty, [(5, ⟨[], .beforeFirst⟩)], 6⟩ 5

/-- C6: `get` on an absent key returns the distinguished `NotFound`
condition, and the Corruption-Guard passes a `NotFound` result through
unchanged with its flag still healthy. -/
theorem get_missing_is_notFound (db : MemDb) (k : Key)
    (hopen : db.closed = false) (habs : lookupKey k db.entries = none) :
    db.get k = .error .notFound ∧
    guardStep .healthy .get (.err .notFound) = (.error .notFound, .healthy) :=
  ⟨by simp [MemDb.get, hopen, habs], rfl⟩

/-- C6 witness: the empty open store at the key `[0]`. -/
theorem get_missing_is_notFound_witness :
    MemDb.get MemDb.empty [0] = .error .notFound ∧
    guardStep .healthy .get (.err .notFound) = (.error .notFound, .healthy) :=
  get_missing_is_notFound MemDb.empty [0] rfl rfl

/-- C7: deleting an absent key succeeds and leaves the store (hence its
key-to-value mapping) unchanged. -/
theorem delete_absent_is_noop (db : MemDb) (k : Key)
    (hopen : db.closed = false) (habs : lookupKey k db.entries = none) :
    db.delete k = .ok db := by
  have hfilter := filter_ne_of_lookup_none k db.entries habs
  simp only [ne_eq, decide_not] at hfilter
  simp [MemDb.delete, hopen, hfilter]
  rw [← hopen]

/-- C7 witness: the empty open store at the key `[0]`. -/
theorem delete_absent_is_noop_witness :
    MemDb.delete MemDb.empty [0] = .ok MemDb.empty :=
  delete_absent_is_noop MemDb.empty [0] rfl rfl

/-- C8: `exhausted` and `errored` are terminal — further `Next` calls keep
the state unchanged and return false; from `before-first`, `Next` returns
true exactly when a qualifying entry exists, moving onto the first one. -/
theorem iter_next_state_machine :
    (∀ it : Iter, it.pos = .exhausted → it.next = (false, it)) ∧
    (∀ it : Iter, it.pos = .errored → it.next = (false, it)) ∧
    (∀ it : Iter, it.pos = .beforeFirst →
      ((it.next.1 = true ↔ it.pending ≠ []) ∧
       ∀ k v rest, it.pending = (k, v) :: rest →
         it.next = (true, ⟨rest, .onEntry k v⟩))) := by
  refine ⟨next_at_exhausted, next_at_errored, fun it hpos => ?_⟩
  obtain ⟨L, p⟩ := it
  simp only at hpos
  subst hpos
  cases L with
  | nil => exact ⟨by simp [Iter.next], fun k v rest h => by simp at h⟩
  | cons e rest =>
    obtain ⟨k, v⟩ := e
    refine ⟨by simp [Iter.next], fun k2 v2 rest2 h => ?_⟩
    simp only at h
    injection h with h1 h2
    injection h1 with hk hv
    subst hk; subst hv; subst h2
    rfl

/-- C8 witness: the terminal clause at an exhausted iterator and the
fresh-handle clause at a one-entry cursor. -/
theorem iter_next_state_machine_witness :
    Iter.next ⟨[], .exhausted⟩ = (false, ⟨[], .exhausted⟩) ∧
    Iter.next ⟨[([1], [2])], .beforeFirst⟩ = (true, ⟨[], .onEntry [1] [2]⟩) :=
  ⟨iter_next_state_machine.1 ⟨[], .exhausted⟩ rfl,
   (iter_next_state_machine.2.2 ⟨[([1], [2])], .beforeFirst⟩ rfl).2 [1] [2] [] rfl⟩

/-- C2: a non-`NotFound` failure forwarded while healthy drives the flag to
`corrupted` and already reports `Corrupted`; once corrupted, every
subsequent operation (including `Close`) fails with `Corrupted` and the
flag stays corrupted; and the tri-state flag never returns to healthy
after leaving it. -/
theorem corruption_guard_sticky :
    (∀ (op : GuardOp) (e : DbError), e ≠ .notFound →
      guardStep .healthy op (.err e) = (.error .corrupted, .corrupted)) ∧
    (∀ ops : List (GuardOp × InnerOutcome),
      (guardRun .corrupted ops).2 = .corrupted ∧
      ∀ r ∈ (guardRun .corrupted ops).1, r = .error .corrupted) ∧
    (∀ (f : GuardFlag) (ops : List (GuardOp × InnerOutcome)),
      f ≠ .healthy → (guardRun f ops).2 ≠ .healthy) := by
  refine ⟨fun op e he => ?_, fun ops => ?_, fun f ops => ?_⟩
  · cases e with
    | notFound => exact absurd rfl he
    | closed => rfl
    | corrupted => rfl
    | unknownIterator => rfl
    | invalidArgument => rfl
    | internal => rfl
  · induction ops with
    | nil => exact ⟨rfl, by simp [guardRun]⟩
    | cons hd tl ih =>
      obtain ⟨op, inn⟩ := hd
      refine ⟨ih.1, fun r hr => ?_⟩
      simp only [guardRun, guardStep, List.mem_cons] at hr ⊢
      rcases hr with rfl | hr
      · rfl
      · exact ih.2 r hr
  · induction ops generalizing f with
    | nil => exact fun hne => hne
    | cons hd tl ih =>
      obtain ⟨op, inn⟩ := hd
      intro hne
      have hstep : (guardStep f op inn).2 ≠ .healthy := by
        cases f with
        | healthy => exact absurd rfl hne
        | closed => simp [guardStep]
        | corrupted => simp [guardStep]
      simpa [guardRun] using ih (guardStep f op inn).2 hstep

/-- C2 witness: an `Internal` failure on `get` corrupts immediately, and a
subsequent `Close` on the corrupted instance reports `Corrupted`. -/
theorem corruption_guard_sticky_witness :
    guardStep .healthy .get (.err .internal) = (.error .corrupted, .corrupted) ∧
    (guardRun .corrupted [(.close, .ok)]).2 = .corrupted ∧
    ∀ r ∈ (guardRun .corrupted [(.close, .ok)]).1, r = .error .corrupted :=
  ⟨corruption_guard_sticky.1 .get .internal (by decide),
   corruption_guard_sticky.2.1 [(.close, .ok)]⟩

/-- C9: the `Default` trait impl bodies `Self::default()` resolve to the
inherent `default` methods, so the trait-level defaults terminate with the
records the inherent methods build. -/
theorem default_resolution_terminates :
    GetTxResponse.traitDefault =
      { jsonrpc := "2.0", id := 1, result := none, error := none } ∧
    GetTxResult.traitDefault = { tx := Tx.default, encoding := "" } ∧
    Info.traitDefault =
      { id := none, key_type := KeyType.unknown "", mnemonic_phrase := none,
        private_key_cb58 := none, private_key_hex := none, addresses := [],
        short_address := ShortId.empty, eth_address := "", h160_address := 0 } :=
  ⟨rfl, rfl, rfl⟩

/-- C10: `from_str` never fails, the string round trip restores every
input except `"aws_kms"`, and that one input lands on `AwsKms`, whose
`as_str` is `"aws-kms"`. -/
theorem keyType_string_roundtrip :
    (∀ s : String, KeyType.from_str s = .ok (KeyType.ofStr s)) ∧
    (∀ s : String, s ≠ "aws_kms" → (KeyType.ofStr s).as_str = s) ∧
    KeyType.ofStr "aws_kms" = KeyType.awsKms ∧
    KeyType.awsKms.as_str = "aws-kms" := by
  refine ⟨fun s => rfl, fun s hs => ?_, rfl, rfl⟩
  unfold KeyType.ofStr
  by_cases h1 : s = "hot"
  · simp [h1, KeyType.as_str]
  · by_cases h2 : s = "aws-kms"
    · simp [h1, h2, KeyType.as_str]
    · simp [h1, h2, hs, KeyType.as_str]

/-- C10 witness: the round trip at `"hot"`. -/
theorem keyType_string_roundtrip_witness :
    (KeyType.ofStr "hot").as_str = "hot" :=
  keyType_string_roundtrip.2.1 "hot" (by decide)

end Avalanche
